import Mathlib

/-!
Shallow embedding of `src/satlas.py` (download-satlas-map).

The repository is a single Python file.  Its core pipeline is:

* `utm_to_latlon x y zone northern` — builds a pyproj transformer from the
  CRS string `f"EPSG:326{zone}"` to `"EPSG:4326"`, transforms `(x, y)` to
  `(lon, lat)` and returns `(lat, lon)`.  The pyproj transform itself is an
  external collaborator; it is modelled as an abstract function from the
  source-CRS string and the projected point to the `(lon, lat)` pair.
* `lat_lon_to_tile_indices lat lon zoom` — the slippy-map formula, with
  Python `int(...)` conversion (truncation toward zero) applied to each
  real-valued expression.
* `get_tile_bounds_for_utm_region` — converts the two corners and takes
  componentwise min/max of the two tile addresses.
* `download_tiles_parallel` — enumerates the coordinate grid
  `[(x, y) for x in range(x_start, x_end+1) for y in range(y_start, y_end+1)]`,
  fetches each tile (modelled as an abstract function returning
  `Option Img`), and keeps the successful ones keyed by `(x, y)`.
* `stitch_tiles` — allocates an RGB canvas of size
  `(width * grid_width, height * grid_height)` (default fill: black),
  where `width × height` is the size of a sample tile (the first entry of
  the dictionary), and pastes every present tile of the rectangle at pixel
  offset `((x - x_min) * width, (y - y_min) * height)`.

Python dictionaries are modelled as association lists in insertion order
(`List ((ℤ × ℤ) × Img)`), with `List.lookup` as key lookup; PIL images are
modelled as a width, a height and a pixel function to RGB triples.
-/

namespace Satlas

/-- Model of a decoded raster image (PIL `Image`): a pixel grid of the given
width and height whose contents are given by a total pixel function to RGB
triples.  Reads outside the nominal bounds are harmless in the model; the
code never performs them. -/
structure Img where
  w : Nat
  h : Nat
  pix : Nat → Nat → Nat × Nat × Nat

/-- Model of `Image.new("RGB", (W, H))`: a canvas whose every pixel holds the
default fill colour, black `(0, 0, 0)`. -/
def imageNew (W H : Nat) : Img :=
  ⟨W, H, fun _ _ => (0, 0, 0)⟩

/-- Model of `canvas.paste(tile, (ox, oy))`: pixels inside the pasted
rectangle take the tile's pixels, all others keep the canvas's pixels.
Canvas dimensions are unchanged. -/
def paste (c t : Img) (ox oy : ℤ) : Img :=
  ⟨c.w, c.h, fun p q =>
    if ox ≤ (p : ℤ) ∧ (p : ℤ) < ox + t.w ∧ oy ≤ (q : ℤ) ∧ (q : ℤ) < oy + t.h then
      t.pix ((p : ℤ) - ox).toNat ((q : ℤ) - oy).toNat
    else c.pix p q⟩

/-- Model of Python `range(a, b + 1)` over integers, as the list
`[a, a+1, ..., b]` (empty when `b < a`). -/
def intRange (a b : ℤ) : List ℤ :=
  (List.range (b + 1 - a).toNat).map (fun i : ℕ => a + (i : ℤ))

/-- Model of Python `int(...)` applied to a real number: truncation toward
zero (floor for non-negative arguments, ceiling for negative ones). -/
noncomputable def pyInt (r : ℝ) : ℤ :=
  if 0 ≤ r then ⌊r⌋ else ⌈r⌉

/-- The normalized Mercator ordinate from line 92 of `satlas.py`:
`(1 - log(tan(radians(lat)) + 1 / cos(radians(lat))) / pi) / 2`. -/
noncomputable def mercY (lat : ℝ) : ℝ :=
  (1 - Real.log (Real.tan (lat * Real.pi / 180) + 1 / Real.cos (lat * Real.pi / 180)) / Real.pi) / 2

/-- Embedding of `lat_lon_to_tile_indices(lat, lon, zoom)`: with
`n = 2 ** zoom`, returns `(int((lon + 180) / 360 * n), int(mercY lat * n))`,
where `int` is Python truncation toward zero. -/
noncomputable def lat_lon_to_tile_indices (lat lon : ℝ) (zoom : ℕ) : ℤ × ℤ :=
  let n : ℝ := 2 ^ zoom
  (pyInt ((lon + 180) / 360 * n), pyInt (mercY lat * n))

/-- The source-CRS string built by `utm_to_latlon`: the f-string
`f"EPSG:326{zone}"`, independently of the `northern` argument. -/
def utmSourceCrs (zone : ℕ) (northern : Bool) : String :=
  "EPSG:326" ++ toString zone

/-- Embedding of `utm_to_latlon(x, y, zone, northern)`.  The pyproj
transformer is the abstract argument `transform`, mapping a source-CRS
string and a projected `(x, y)` point to the `(lon, lat)` pair that
`transformer.transform(x, y)` returns; the function then swaps the pair to
return `(lat, lon)`. -/
def utm_to_latlon (transform : String → ℝ × ℝ → ℝ × ℝ)
    (x y : ℝ) (zone : ℕ) (northern : Bool) : ℝ × ℝ :=
  let p := transform (utmSourceCrs zone northern) (x, y)
  (p.2, p.1)

/-- Embedding of `get_tile_bounds_for_utm_region(ul_x, ul_y, lr_x, lr_y,
zoom, utm_zone)`: convert both corners through `utm_to_latlon` (with the
default `northern=True`) and `lat_lon_to_tile_indices`, then return
`(min x_ul x_lr, max x_ul x_lr, min y_ul y_lr, max y_ul y_lr)`. -/
noncomputable def get_tile_bounds_for_utm_region
    (transform : String → ℝ × ℝ → ℝ × ℝ)
    (ul_x ul_y lr_x lr_y : ℝ) (zoom : ℕ) (utm_zone : ℕ) : ℤ × ℤ × ℤ × ℤ :=
  let ul := utm_to_latlon transform ul_x ul_y utm_zone true
  let lr := utm_to_latlon transform lr_x lr_y utm_zone true
  let tul := lat_lon_to_tile_indices ul.1 ul.2 zoom
  let tlr := lat_lon_to_tile_indices lr.1 lr.2 zoom
  (min tul.1 tlr.1, max tul.1 tlr.1, min tul.2 tlr.2, max tul.2 tlr.2)

/-- The coordinate list built by `download_tiles_parallel`:
`[(x, y) for x in range(x_start, x_end + 1) for y in range(y_start, y_end + 1)]`. -/
def scheduledCoords (x_start x_end y_start y_end : ℤ) : List (ℤ × ℤ) :=
  (intRange x_start x_end).flatMap
    (fun x => (intRange y_start y_end).map (fun y => (x, y)))

/-- Embedding of `download_tiles_parallel`: each scheduled coordinate is
fetched once through `download` (the model of `download_tile` at the fixed
zoom and base URL, returning `none` on any non-200 response); successful
fetches are recorded under their `(x, y)` key, failures contribute
nothing.  The resulting association list models `tiles_dict`. -/
def download_tiles_parallel (download : ℤ → ℤ → Option Img)
    (x_start x_end y_start y_end : ℤ) : List ((ℤ × ℤ) × Img) :=
  (scheduledCoords x_start x_end y_start y_end).filterMap
    (fun c => (download c.1 c.2).map (fun tile => (c, tile)))

/-- Embedding of `stitch_tiles(tiles_dict, x_range, y_range)`: `None` on an
empty dictionary; otherwise the sample tile is the first entry, the canvas
is `Image.new("RGB", (width * grid_width, height * grid_height))`, and the
double loop over `y` then `x` pastes every present tile at
`((x - x_range.1) * width, (y - y_range.1) * height)`. -/
def stitch_tiles (tiles_dict : List ((ℤ × ℤ) × Img)) (x_range y_range : ℤ × ℤ) :
    Option Img :=
  match tiles_dict with
  | [] => none
  | sample :: _ =>
    let width := sample.2.w
    let height := sample.2.h
    let grid_width := (x_range.2 - x_range.1 + 1).toNat
    let grid_height := (y_range.2 - y_range.1 + 1).toNat
    some ((intRange y_range.1 y_range.2).foldl (fun canvas y =>
      (intRange x_range.1 x_range.2).foldl (fun canvas x =>
        match tiles_dict.lookup (x, y) with
        | some tile =>
            paste canvas tile ((x - x_range.1) * (width : ℤ)) ((y - y_range.1) * (height : ℤ))
        | none => canvas) canvas) (imageNew (width * grid_width) (height * grid_height)))

/-- Claim C1: `get_tile_bounds_for_utm_region` returns a tile rectangle with
`x_min ≤ x_max` and `y_min ≤ y_max`, for every transform, every pair of
projected corner points, every zoom level and every UTM zone. -/
theorem get_tile_bounds_normalized
    (transform : String → ℝ × ℝ → ℝ × ℝ)
    (ul_x ul_y lr_x lr_y : ℝ) (zoom : ℕ) (utm_zone : ℕ) :
    (get_tile_bounds_for_utm_region transform ul_x ul_y lr_x lr_y zoom utm_zone).1 ≤
      (get_tile_bounds_for_utm_region transform ul_x ul_y lr_x lr_y zoom utm_zone).2.1 ∧
    (get_tile_bounds_for_utm_region transform ul_x ul_y lr_x lr_y zoom utm_zone).2.2.1 ≤
      (get_tile_bounds_for_utm_region transform ul_x ul_y lr_x lr_y zoom utm_zone).2.2.2 := by
  unfold get_tile_bounds_for_utm_region
  exact ⟨min_le_max, min_le_max⟩

/-- Claim C6, counterexample: the claim says the southern-hemisphere flag
selects a southern UTM definition (CRS `EPSG:327{zone}`).  With a transform
that would respond to the southern CRS string `"EPSG:32733"` with a marked
value, `utm_to_latlon` at zone 33 with `northern = false` still produces the
unmarked value, because the code always builds `"EPSG:326{zone}"`. -/
theorem utm_to_latlon_ignores_southern_crs :
    utm_to_latlon
        (fun s p => if s = "EPSG:32733" then (1, 1) else p)
        0 0 33 false = (0, 0) ∧
      utmSourceCrs 33 false ≠ "EPSG:32733" := by
  constructor
  · have h : ("EPSG:326" ++ toString 33 : String) ≠ "EPSG:32733" := by decide
    simp [utm_to_latlon, utmSourceCrs, h]
  · decide

/-- Claim C6 as amended: `utm_to_latlon` always uses the northern-hemisphere
CRS definition `EPSG:326{zone}`; the `northern` flag is accepted but unused,
so the result is independent of it. -/
theorem utm_to_latlon_hemisphere_independent
    (transform : String → ℝ × ℝ → ℝ × ℝ) (x y : ℝ) (zone : ℕ) (b b' : Bool) :
    utmSourceCrs zone b = "EPSG:326" ++ toString zone ∧
      utm_to_latlon transform x y zone b = utm_to_latlon transform x y zone b' := by
  exact ⟨rfl, rfl⟩

/-- Helper: the first component of `lat_lon_to_tile_indices` is the Python
`int` of the longitude expression. -/
lemma lat_lon_to_tile_indices_fst (lat lon : ℝ) (zoom : ℕ) :
    (lat_lon_to_tile_indices lat lon zoom).1 = pyInt ((lon + 180) / 360 * 2 ^ zoom) := rfl

/-- Helper: the second component of `lat_lon_to_tile_indices` is the Python
`int` of the Mercator expression. -/
lemma lat_lon_to_tile_indices_snd (lat lon : ℝ) (zoom : ℕ) :
    (lat_lon_to_tile_indices lat lon zoom).2 = pyInt (mercY lat * 2 ^ zoom) := rfl

/-- Helper: Python `int` agrees with `floor` on non-negative reals. -/
lemma pyInt_of_nonneg {r : ℝ} (h : 0 ≤ r) : pyInt r = ⌊r⌋ := by
  rw [pyInt, if_pos h]

/-- Helper: Python `int` is the ceiling on negative reals. -/
lemma pyInt_of_neg {r : ℝ} (h : r < 0) : pyInt r = ⌈r⌉ := by
  rw [pyInt, if_neg (not_le.mpr h)]

/-- Helper: the normalized Mercator ordinate at the equator is `1/2`:
`tan 0 = 0`, `cos 0 = 1`, so the expression is `(1 - log 1 / pi) / 2`. -/
lemma mercY_zero : mercY 0 = 1 / 2 := by
  rw [mercY]
  norm_num [Real.tan_zero, Real.cos_zero, Real.log_one]

/-- Claim C5, counterexample: at `lat = 0`, `lon = -200`, `zoom = 0` the
longitude expression is `(-200 + 180) / 360 = -1/18`; the code's Python
`int` truncates it toward zero giving tile x `0`, while the claimed floor
(round toward negative infinity) is `-1`. -/
theorem tile_x_truncates_not_floors :
    (lat_lon_to_tile_indices 0 (-200) 0).1 = 0 ∧
      ⌊((-200 : ℝ) + 180) / 360 * 2 ^ (0 : ℕ)⌋ = -1 := by
  have hval : ((-200 : ℝ) + 180) / 360 * 2 ^ (0 : ℕ) = -(1 / 18) := by norm_num
  constructor
  · rw [lat_lon_to_tile_indices_fst, hval, pyInt_of_neg (by norm_num)]
    rw [Int.ceil_eq_iff]
    constructor <;> norm_num
  · rw [hval, Int.floor_eq_iff]
    constructor <;> norm_num

/-- Claim C5 as amended: `lat_lon_to_tile_indices` applies Python `int`
(truncation toward zero) to each expression; this coincides with the floor
whenever the expressions are non-negative, which holds throughout the
intended input range (longitudes in `[-180, 180]`, latitudes inside the
Web-Mercator band). -/
theorem lat_lon_to_tile_indices_floor_of_nonneg (lat lon : ℝ) (zoom : ℕ)
    (hx : 0 ≤ (lon + 180) / 360 * 2 ^ zoom) (hy : 0 ≤ mercY lat * 2 ^ zoom) :
    lat_lon_to_tile_indices lat lon zoom =
      (⌊(lon + 180) / 360 * 2 ^ zoom⌋, ⌊mercY lat * 2 ^ zoom⌋) := by
  show (pyInt ((lon + 180) / 360 * 2 ^ zoom), pyInt (mercY lat * 2 ^ zoom)) = _
  rw [pyInt_of_nonneg hx, pyInt_of_nonneg hy]

/-- Witness for the amended C5 at `lat = 0`, `lon = 0`, `zoom = 0`. -/
theorem lat_lon_to_tile_indices_floor_of_nonneg_witness :
    (0 ≤ ((0 : ℝ) + 180) / 360 * 2 ^ (0 : ℕ)) ∧ (0 ≤ mercY 0 * 2 ^ (0 : ℕ)) ∧
      lat_lon_to_tile_indices 0 0 0 =
        (⌊((0 : ℝ) + 180) / 360 * 2 ^ (0 : ℕ)⌋, ⌊mercY 0 * 2 ^ (0 : ℕ)⌋) := by
  have h1 : (0 : ℝ) ≤ ((0 : ℝ) + 180) / 360 * 2 ^ (0 : ℕ) := by norm_num
  have h2 : (0 : ℝ) ≤ mercY 0 * 2 ^ (0 : ℕ) := by rw [mercY_zero]; norm_num
  exact ⟨h1, h2, lat_lon_to_tile_indices_floor_of_nonneg 0 0 0 h1 h2⟩

/-- Claim C7, counterexample: at `zoom = 0`, the input `lat = 0`,
`lon = 180` (a longitude with valid latitude 0) maps to tile `(1, 0)`, not
`(0, 0)`: the x expression is `(180 + 180) / 360 * 1 = 1` and `int 1 = 1`. -/
theorem zoom0_not_always_origin :
    (lat_lon_to_tile_indices 0 180 0).1 = 1 ∧
      lat_lon_to_tile_indices 0 180 0 ≠ (0, 0) := by
  have h1 : (lat_lon_to_tile_indices 0 180 0).1 = 1 := by
    have hval : ((180 : ℝ) + 180) / 360 * 2 ^ (0 : ℕ) = 1 := by norm_num
    rw [lat_lon_to_tile_indices_fst, hval, pyInt_of_nonneg (by norm_num)]
    norm_num
  refine ⟨h1, fun h => ?_⟩
  have := congrArg Prod.fst h
  rw [h1] at this
  exact one_ne_zero this

/-- Claim C7 as amended: `lat_lon_to_tile_indices` is deterministic (it is a
pure function of its arguments, so repeated evaluation yields the same
pair), and at `zoom = 0` every input with longitude in `[-180, 180)` and
latitude inside the Web-Mercator band (normalized Mercator ordinate in
`[0, 1)`) maps to tile `(0, 0)`. -/
theorem lat_lon_to_tile_indices_zoom0 (lat lon : ℝ)
    (h1 : -180 ≤ lon) (h2 : lon < 180) (h3 : 0 ≤ mercY lat) (h4 : mercY lat < 1) :
    lat_lon_to_tile_indices lat lon 0 = lat_lon_to_tile_indices lat lon 0 ∧
      lat_lon_to_tile_indices lat lon 0 = (0, 0) := by
  refine ⟨rfl, ?_⟩
  have hx0 : (0 : ℝ) ≤ (lon + 180) / 360 * 2 ^ (0 : ℕ) := by
    rw [pow_zero, mul_one]
    apply div_nonneg (by linarith) (by norm_num)
  have hx1 : (lon + 180) / 360 * 2 ^ (0 : ℕ) < 1 := by
    rw [pow_zero, mul_one, div_lt_one (by norm_num)]
    linarith
  have hy0 : (0 : ℝ) ≤ mercY lat * 2 ^ (0 : ℕ) := by rw [pow_zero, mul_one]; exact h3
  have hy1 : mercY lat * 2 ^ (0 : ℕ) < 1 := by rw [pow_zero, mul_one]; exact h4
  show (pyInt ((lon + 180) / 360 * 2 ^ (0 : ℕ)), pyInt (mercY lat * 2 ^ (0 : ℕ))) = (0, 0)
  rw [pyInt_of_nonneg hx0, pyInt_of_nonneg hy0, Prod.mk.injEq]
  constructor
  · rw [Int.floor_eq_iff] <;> simp_all
  · rw [Int.floor_eq_iff] <;> simp_all

/-- Witness for the amended C7 at `lat = 0`, `lon = 0`. -/
theorem lat_lon_to_tile_indices_zoom0_witness :
    ((-180 : ℝ) ≤ 0) ∧ ((0 : ℝ) < 180) ∧ (0 ≤ mercY 0) ∧ (mercY 0 < 1) ∧
      (lat_lon_to_tile_indices 0 0 0 = lat_lon_to_tile_indices 0 0 0 ∧
        lat_lon_to_tile_indices 0 0 0 = (0, 0)) := by
  have h1 : (-180 : ℝ) ≤ 0 := by norm_num
  have h2 : (0 : ℝ) < 180 := by norm_num
  have h3 : (0 : ℝ) ≤ mercY 0 := by rw [mercY_zero]; norm_num
  have h4 : mercY 0 < 1 := by rw [mercY_zero]; norm_num
  exact ⟨h1, h2, h3, h4, lat_lon_to_tile_indices_zoom0 0 0 h1 h2 h3 h4⟩

/-- Helper: length of the integer range list. -/
lemma length_intRange (a b : ℤ) : (intRange a b).length = (b + 1 - a).toNat := by
  rw [intRange, List.length_map, List.length_range]

/-- Helper: membership in the integer range list is the pair of bounds. -/
lemma mem_intRange {a b c : ℤ} : c ∈ intRange a b ↔ a ≤ c ∧ c ≤ b := by
  rw [intRange, List.mem_map]
  constructor
  · rintro ⟨i, hi, rfl⟩
    rw [List.mem_range] at hi
    omega
  · rintro ⟨h1, h2⟩
    refine ⟨(c - a).toNat, ?_, by omega⟩
    rw [List.mem_range]
    omega

/-- Helper: `toNat` distributes over products of non-negative integers. -/
lemma toNat_mul_of_nonneg {a b : ℤ} (ha : 0 ≤ a) (hb : 0 ≤ b) :
    (a * b).toNat = a.toNat * b.toNat := by
  rw [← Int.natCast_inj, Int.toNat_of_nonneg (mul_nonneg ha hb), Nat.cast_mul,
    Int.toNat_of_nonneg ha, Int.toNat_of_nonneg hb]

/-- Helper: the scheduled coordinate list has one entry per grid cell. -/
lemma length_scheduledCoords (x_start x_end y_start y_end : ℤ) :
    (scheduledCoords x_start x_end y_start y_end).length =
      (x_end + 1 - x_start).toNat * (y_end + 1 - y_start).toNat := by
  rw [scheduledCoords, List.length_flatMap]
  have h : (List.length ∘ fun x => (intRange y_start y_end).map (fun y => (x, y)))
      = fun _ : ℤ => (intRange y_start y_end).length := by
    funext x
    simp
  rw [h, List.map_const', List.sum_replicate, smul_eq_mul, length_intRange, length_intRange]

/-- Helper: membership in the scheduled coordinate list is the rectangle
bound condition. -/
lemma mem_scheduledCoords {x_start x_end y_start y_end : ℤ} {p : ℤ × ℤ} :
    p ∈ scheduledCoords x_start x_end y_start y_end ↔
      x_start ≤ p.1 ∧ p.1 ≤ x_end ∧ y_start ≤ p.2 ∧ p.2 ≤ y_end := by
  rw [scheduledCoords, List.mem_flatMap]
  constructor
  · rintro ⟨x, hx, hmem⟩
    rw [List.mem_map] at hmem
    obtain ⟨y, hy, rfl⟩ := hmem
    rw [mem_intRange] at hx
    rw [mem_intRange] at hy
    exact ⟨hx.1, hx.2, hy.1, hy.2⟩
  · rintro ⟨h1, h2, h3, h4⟩
    refine ⟨p.1, mem_intRange.mpr ⟨h1, h2⟩, ?_⟩
    rw [List.mem_map]
    exact ⟨p.2, mem_intRange.mpr ⟨h3, h4⟩, rfl⟩

/-- Helper: the keys of the fetched tile set are exactly the scheduled
coordinates whose fetch succeeded. -/
lemma download_tiles_parallel_map_fst (download : ℤ → ℤ → Option Img)
    (x_start x_end y_start y_end : ℤ) :
    (download_tiles_parallel download x_start x_end y_start y_end).map Prod.fst
      = (scheduledCoords x_start x_end y_start y_end).filter
          (fun c => (download c.1 c.2).isSome) := by
  rw [download_tiles_parallel]
  generalize scheduledCoords x_start x_end y_start y_end = L
  induction L with
  | nil => rfl
  | cons hd tl ih =>
    rw [List.filterMap_cons, List.filter_cons]
    cases hdl : download hd.1 hd.2 with
    | none => simpa [hdl] using ih
    | some t => simpa [hdl] using ih

/-- Helper: successes and failures partition the scheduled list. -/
lemma length_filter_isSome_add_isNone (download : ℤ → ℤ → Option Img)
    (L : List (ℤ × ℤ)) :
    (L.filter (fun c => (download c.1 c.2).isSome)).length
      + (L.filter (fun c => (download c.1 c.2).isNone)).length = L.length := by
  induction L with
  | nil => rfl
  | cons hd tl ih =>
    cases hdl : download hd.1 hd.2 <;> simp [List.filter_cons, hdl] <;> omega

/-- Claim C2: for every tile rectangle (with normalized bounds),
`download_tiles_parallel` schedules exactly
`(x_end - x_start + 1) * (y_end - y_start + 1)` tile fetches; the returned
tile set holds exactly the keys of the scheduled fetches that succeeded, so
its size plus the number of failures is the number scheduled; and when every
fetch fails it returns the empty tile set rather than raising. -/
theorem download_tiles_parallel_partial_failure (download : ℤ → ℤ → Option Img)
    (x_start x_end y_start y_end : ℤ)
    (hx : x_start ≤ x_end) (hy : y_start ≤ y_end) :
    (scheduledCoords x_start x_end y_start y_end).length
        = ((x_end - x_start + 1) * (y_end - y_start + 1)).toNat
      ∧ (download_tiles_parallel download x_start x_end y_start y_end).map Prod.fst
          = (scheduledCoords x_start x_end y_start y_end).filter
              (fun c => (download c.1 c.2).isSome)
      ∧ (download_tiles_parallel download x_start x_end y_start y_end).length
          + ((scheduledCoords x_start x_end y_start y_end).filter
              (fun c => (download c.1 c.2).isNone)).length
          = (scheduledCoords x_start x_end y_start y_end).length
      ∧ ((∀ c ∈ scheduledCoords x_start x_end y_start y_end, download c.1 c.2 = none)
          → download_tiles_parallel download x_start x_end y_start y_end = []) := by
  refine ⟨?_, download_tiles_parallel_map_fst download x_start x_end y_start y_end, ?_, ?_⟩
  · rw [length_scheduledCoords,
      toNat_mul_of_nonneg (by omega : (0:ℤ) ≤ x_end - x_start + 1)
        (by omega : (0:ℤ) ≤ y_end - y_start + 1)]
    congr 1 <;> omega
  · have hkeys := download_tiles_parallel_map_fst download x_start x_end y_start y_end
    have hlen : (download_tiles_parallel download x_start x_end y_start y_end).length
        = ((scheduledCoords x_start x_end y_start y_end).filter
            (fun c => (download c.1 c.2).isSome)).length := by
      rw [← hkeys, List.length_map]
    rw [hlen]
    exact length_filter_isSome_add_isNone download _
  · intro hall
    rw [download_tiles_parallel, List.filterMap_eq_nil_iff]
    intro c hc
    rw [hall c hc]
    rfl

/-- Concrete fetch oracle used by the fetch-stage witnesses: tiles in column
zero succeed with a one-pixel image, all others fail. -/
def sampleFetch : ℤ → ℤ → Option Img :=
  fun x _ => if x = 0 then some (imageNew 1 1) else none

/-- Witness for C2 on the rectangle `x ∈ [0, 1]`, `y ∈ [0, 0]` with
`sampleFetch`: two tiles are scheduled, one fails. -/
theorem download_tiles_parallel_partial_failure_witness :
    ((0 : ℤ) ≤ 1) ∧ ((0 : ℤ) ≤ 0) ∧
      ((scheduledCoords 0 1 0 0).length = (((1 : ℤ) - 0 + 1) * ((0 : ℤ) - 0 + 1)).toNat
        ∧ (download_tiles_parallel sampleFetch 0 1 0 0).map Prod.fst
            = (scheduledCoords 0 1 0 0).filter (fun c => (sampleFetch c.1 c.2).isSome)
        ∧ (download_tiles_parallel sampleFetch 0 1 0 0).length
            + ((scheduledCoords 0 1 0 0).filter
                (fun c => (sampleFetch c.1 c.2).isNone)).length
            = (scheduledCoords 0 1 0 0).length
        ∧ ((∀ c ∈ scheduledCoords 0 1 0 0, sampleFetch c.1 c.2 = none)
            → download_tiles_parallel sampleFetch 0 1 0 0 = [])) :=
  ⟨by decide, by decide,
    download_tiles_parallel_partial_failure sampleFetch 0 1 0 0 (by decide) (by decide)⟩

/-- Claim C10: every key of the tile set returned by
`download_tiles_parallel` lies inside the requested rectangle. -/
theorem download_tiles_parallel_keys_in_range (download : ℤ → ℤ → Option Img)
    (x_start x_end y_start y_end : ℤ) (p : ℤ × ℤ)
    (hp : p ∈ (download_tiles_parallel download x_start x_end y_start y_end).map Prod.fst) :
    x_start ≤ p.1 ∧ p.1 ≤ x_end ∧ y_start ≤ p.2 ∧ p.2 ≤ y_end := by
  rw [download_tiles_parallel_map_fst] at hp
  exact mem_scheduledCoords.mp (List.mem_of_mem_filter hp)

/-- Witness for C10: the key `(0, 0)` of a successful fetch is inside the
rectangle `x ∈ [0, 1]`, `y ∈ [0, 0]`. -/
theorem download_tiles_parallel_keys_in_range_witness :
    ((0, 0) : ℤ × ℤ) ∈ (download_tiles_parallel sampleFetch 0 1 0 0).map Prod.fst ∧
      ((0 : ℤ) ≤ (0 : ℤ) ∧ (0 : ℤ) ≤ (1 : ℤ) ∧ (0 : ℤ) ≤ (0 : ℤ) ∧ (0 : ℤ) ≤ (0 : ℤ)) := by
  have hp : ((0, 0) : ℤ × ℤ)
      ∈ (download_tiles_parallel sampleFetch 0 1 0 0).map Prod.fst := by
    rw [download_tiles_parallel_map_fst]
    decide
  exact ⟨hp, download_tiles_parallel_keys_in_range sampleFetch 0 1 0 0 (0, 0) hp⟩

/-- Helper: `if`-form of the cons equation of `List.lookup`. -/
lemma lookup_cons_eq {α β : Type} [BEq α] (a k : α) (b : β) (l : List (α × β)) :
    ((a, b) :: l).lookup k = if k == a then some b else l.lookup k := by
  rw [List.lookup_cons]
  cases k == a <;> rfl

/-- Helper: a successful lookup comes from an entry of the list. -/
lemma lookup_mem {k : ℤ × ℤ} {v : Img} :
    ∀ {l : List ((ℤ × ℤ) × Img)}, l.lookup k = some v → (k, v) ∈ l := by
  intro l
  induction l with
  | nil => intro h; simp [List.lookup] at h
  | cons hd tl ih =>
    intro h
    obtain ⟨a, b⟩ := hd
    rw [lookup_cons_eq] at h
    by_cases hk : k == a
    · rw [if_pos hk] at h
      rw [List.mem_cons]
      left
      cases h
      rw [eq_of_beq hk]
    · rw [if_neg hk] at h
      exact List.mem_cons_of_mem _ (ih h)

/-- Helper: the pixel equation of `paste`, stated explicitly. -/
lemma paste_pix (c t : Img) (ox oy : ℤ) (p q : Nat) :
    (paste c t ox oy).pix p q =
      if ox ≤ (p : ℤ) ∧ (p : ℤ) < ox + t.w ∧ oy ≤ (q : ℤ) ∧ (q : ℤ) < oy + t.h then
        t.pix ((p : ℤ) - ox).toNat ((q : ℤ) - oy).toNat
      else c.pix p q := rfl

/-- Helper: a pixel lying in a half-open stripe of width `w` starting at
grid offset `d * w` determines the stripe index `d` uniquely. -/
lemma cell_unique {d e i w : ℤ} (hw : 0 < w) (hi0 : 0 ≤ i) (hi : i < w)
    (h1 : d * w ≤ e * w + i) (h2 : e * w + i < d * w + w) : d = e := by
  have hde : d < e + 1 := by
    have hlt : d * w < (e + 1) * w := by linarith
    exact (mul_lt_mul_right hw).mp hlt
  have hed : e < d + 1 := by
    have hlt : e * w < (d + 1) * w := by linarith
    exact (mul_lt_mul_right hw).mp hlt
  omega

/-- Helper: the cast of the canvas pixel index of cell `(cx, ·)` at in-cell
offset `i`. -/
lemma cell_pixel_cast {x0 cx : ℤ} (hcx : x0 ≤ cx) (w i : Nat) :
    (((cx - x0).toNat * w + i : ℕ) : ℤ) = (cx - x0) * (w : ℤ) + (i : ℤ) := by
  push_cast [Int.toNat_of_nonneg (by omega : (0 : ℤ) ≤ cx - x0)]
  ring

/-- Helper: pasting a `w × h` tile at its own cell offset writes its pixel
`(i, j)` to the canvas pixel of the cell at in-cell offset `(i, j)`. -/
lemma paste_self_cell (c t : Img) (x0 y0 cx cy : ℤ) (w h : Nat)
    (htw : t.w = w) (hth : t.h = h)
    (hcx : x0 ≤ cx) (hcy : y0 ≤ cy) (i j : Nat) (hi : i < w) (hj : j < h) :
    (paste c t ((cx - x0) * (w : ℤ)) ((cy - y0) * (h : ℤ))).pix
        ((cx - x0).toNat * w + i) ((cy - y0).toNat * h + j) = t.pix i j := by
  have hpx := cell_pixel_cast hcx w i
  have hqy := cell_pixel_cast hcy h j
  have hiw : (i : ℤ) < w := by exact_mod_cast hi
  have hjh : (j : ℤ) < h := by exact_mod_cast hj
  have hi0 : (0 : ℤ) ≤ (i : ℤ) := Int.natCast_nonneg i
  have hj0 : (0 : ℤ) ≤ (j : ℤ) := Int.natCast_nonneg j
  have hcond : (cx - x0) * (w : ℤ) ≤ (((cx - x0).toNat * w + i : ℕ) : ℤ)
      ∧ (((cx - x0).toNat * w + i : ℕ) : ℤ) < (cx - x0) * (w : ℤ) + t.w
      ∧ (cy - y0) * (h : ℤ) ≤ (((cy - y0).toNat * h + j : ℕ) : ℤ)
      ∧ (((cy - y0).toNat * h + j : ℕ) : ℤ) < (cy - y0) * (h : ℤ) + t.h := by
    rw [hpx, hqy, htw, hth]
    exact ⟨by linarith, by linarith, by linarith, by linarith⟩
  rw [paste_pix, if_pos hcond]
  have e1 : ((((cx - x0).toNat * w + i : ℕ) : ℤ) - (cx - x0) * (w : ℤ)).toNat = i := by
    rw [hpx]
    have hring : (cx - x0) * (w : ℤ) + (i : ℤ) - (cx - x0) * (w : ℤ) = (i : ℤ) := by ring
    rw [hring, Int.toNat_natCast]
  have e2 : ((((cy - y0).toNat * h + j : ℕ) : ℤ) - (cy - y0) * (h : ℤ)).toNat = j := by
    rw [hqy]
    have hring : (cy - y0) * (h : ℤ) + (j : ℤ) - (cy - y0) * (h : ℤ) = (j : ℤ) := by ring
    rw [hring, Int.toNat_natCast]
  rw [e1, e2]

/-- Helper: pasting a `w × h` tile at the cell offset of a different cell
leaves the pixels of cell `(cx, cy)` unchanged. -/
lemma paste_other_cell (c t : Img) (x0 y0 a b cx cy : ℤ) (w h : Nat)
    (hw : 0 < w) (hh : 0 < h) (htw : t.w = w) (hth : t.h = h)
    (hcx : x0 ≤ cx) (hcy : y0 ≤ cy) (i j : Nat) (hi : i < w) (hj : j < h)
    (hne : ¬((a, b) = (cx, cy))) :
    (paste c t ((a - x0) * (w : ℤ)) ((b - y0) * (h : ℤ))).pix
        ((cx - x0).toNat * w + i) ((cy - y0).toNat * h + j)
      = c.pix ((cx - x0).toNat * w + i) ((cy - y0).toNat * h + j) := by
  rw [paste_pix, if_neg]
  rintro ⟨h1, h2, h3, h4⟩
  rw [htw] at h2
  rw [hth] at h4
  have hpx := cell_pixel_cast hcx w i
  have hqy := cell_pixel_cast hcy h j
  rw [hpx] at h1 h2
  rw [hqy] at h3 h4
  have hiw : (i : ℤ) < w := by exact_mod_cast hi
  have hjh : (j : ℤ) < h := by exact_mod_cast hj
  have hwz : (0 : ℤ) < w := by exact_mod_cast hw
  have hhz : (0 : ℤ) < h := by exact_mod_cast hh
  have hax : a - x0 = cx - x0 := cell_unique hwz (Int.natCast_nonneg i) hiw h1 h2
  have hby : b - y0 = cy - y0 := cell_unique hhz (Int.natCast_nonneg j) hjh h3 h4
  apply hne
  rw [Prod.mk.injEq]
  omega

/-- One step of the stitch loop body: paste the tile stored under `xy` (if
any) at its grid offset, scaled by the sample tile size `w × h`. -/
def placeStep (tiles : List ((ℤ × ℤ) × Img)) (x0 y0 : ℤ) (w h : Nat)
    (canvas : Img) (xy : ℤ × ℤ) : Img :=
  match tiles.lookup xy with
  | some tile => paste canvas tile ((xy.1 - x0) * (w : ℤ)) ((xy.2 - y0) * (h : ℤ))
  | none => canvas

/-- Helper: one stitch step never changes the canvas width. -/
lemma placeStep_w (tiles : List ((ℤ × ℤ) × Img)) (x0 y0 : ℤ) (w h : Nat)
    (c : Img) (xy : ℤ × ℤ) : (placeStep tiles x0 y0 w h c xy).w = c.w := by
  unfold placeStep
  cases tiles.lookup xy <;> rfl

/-- Helper: one stitch step never changes the canvas height. -/
lemma placeStep_h (tiles : List ((ℤ × ℤ) × Img)) (x0 y0 : ℤ) (w h : Nat)
    (c : Img) (xy : ℤ × ℤ) : (placeStep tiles x0 y0 w h c xy).h = c.h := by
  unfold placeStep
  cases tiles.lookup xy <;> rfl

/-- Helper: the stitch loop never changes the canvas width. -/
lemma foldl_placeStep_w (tiles : List ((ℤ × ℤ) × Img)) (x0 y0 : ℤ) (w h : Nat) :
    ∀ (L : List (ℤ × ℤ)) (c : Img),
      (L.foldl (placeStep tiles x0 y0 w h) c).w = c.w := by
  intro L
  induction L with
  | nil => intro c; rfl
  | cons hd tl ih => intro c; rw [List.foldl_cons, ih, placeStep_w]

/-- Helper: the stitch loop never changes the canvas height. -/
lemma foldl_placeStep_h (tiles : List ((ℤ × ℤ) × Img)) (x0 y0 : ℤ) (w h : Nat) :
    ∀ (L : List (ℤ × ℤ)) (c : Img),
      (L.foldl (placeStep tiles x0 y0 w h) c).h = c.h := by
  intro L
  induction L with
  | nil => intro c; rfl
  | cons hd tl ih => intro c; rw [List.foldl_cons, ih, placeStep_h]

/-- Helper: when the cell `(cx, cy)` holds no tile, the stitch loop leaves
every pixel of that cell unchanged, whatever cells it visits. -/
lemma foldl_placeStep_pix_of_none
    (tiles : List ((ℤ × ℤ) × Img)) (x0 y0 : ℤ) (w h : Nat)
    (hw : 0 < w) (hh : 0 < h)
    (hu : ∀ en ∈ tiles, (Prod.snd en).w = w ∧ (Prod.snd en).h = h)
    (cx cy : ℤ) (hcx : x0 ≤ cx) (hcy : y0 ≤ cy)
    (i j : Nat) (hi : i < w) (hj : j < h)
    (hlk : tiles.lookup (cx, cy) = none) :
    ∀ (L : List (ℤ × ℤ)) (c : Img),
      (L.foldl (placeStep tiles x0 y0 w h) c).pix
          ((cx - x0).toNat * w + i) ((cy - y0).toNat * h + j) =
        c.pix ((cx - x0).toNat * w + i) ((cy - y0).toNat * h + j) := by
  intro L
  induction L with
  | nil => intro c; rfl
  | cons ab tl ih =>
    intro c
    rw [List.foldl_cons, ih]
    obtain ⟨a, b⟩ := ab
    by_cases hab : ((a, b) : ℤ × ℤ) = (cx, cy)
    · rw [hab]
      unfold placeStep
      rw [hlk]
    · cases hlk2 : tiles.lookup (a, b) with
      | none =>
        unfold placeStep
        rw [hlk2]
      | some t =>
        unfold placeStep
        rw [hlk2]
        exact paste_other_cell c t x0 y0 a b cx cy w h hw hh
          (hu _ (lookup_mem hlk2)).1 (hu _ (lookup_mem hlk2)).2 hcx hcy i j hi hj hab

/-- Helper: when the stitch loop never visits the cell `(cx, cy)`, every
pixel of that cell is left unchanged. -/
lemma foldl_placeStep_pix_of_not_mem
    (tiles : List ((ℤ × ℤ) × Img)) (x0 y0 : ℤ) (w h : Nat)
    (hw : 0 < w) (hh : 0 < h)
    (hu : ∀ en ∈ tiles, (Prod.snd en).w = w ∧ (Prod.snd en).h = h)
    (cx cy : ℤ) (hcx : x0 ≤ cx) (hcy : y0 ≤ cy)
    (i j : Nat) (hi : i < w) (hj : j < h) :
    ∀ (L : List (ℤ × ℤ)) (c : Img), (cx, cy) ∉ L →
      (L.foldl (placeStep tiles x0 y0 w h) c).pix
          ((cx - x0).toNat * w + i) ((cy - y0).toNat * h + j) =
        c.pix ((cx - x0).toNat * w + i) ((cy - y0).toNat * h + j) := by
  intro L
  induction L with
  | nil => intro c _; rfl
  | cons ab tl ih =>
    intro c hnm
    obtain ⟨a, b⟩ := ab
    have hab : ¬(((a, b) : ℤ × ℤ) = (cx, cy)) := fun he => by
      apply hnm
      rw [← he]
      exact List.mem_cons_self _ _
    rw [List.foldl_cons, ih _ (fun hm => hnm (List.mem_cons_of_mem _ hm))]
    cases hlk2 : tiles.lookup (a, b) with
    | none =>
      unfold placeStep
      rw [hlk2]
    | some t =>
      unfold placeStep
      rw [hlk2]
      exact paste_other_cell c t x0 y0 a b cx cy w h hw hh
        (hu _ (lookup_mem hlk2)).1 (hu _ (lookup_mem hlk2)).2 hcx hcy i j hi hj hab

/-- Helper: when the cell `(cx, cy)` holds tile `t` and the stitch loop
visits it, the pixels of that cell end up holding the tile's pixels. -/
lemma foldl_placeStep_pix_of_some
    (tiles : List ((ℤ × ℤ) × Img)) (x0 y0 : ℤ) (w h : Nat)
    (hw : 0 < w) (hh : 0 < h)
    (hu : ∀ en ∈ tiles, (Prod.snd en).w = w ∧ (Prod.snd en).h = h)
    (cx cy : ℤ) (hcx : x0 ≤ cx) (hcy : y0 ≤ cy)
    (i j : Nat) (hi : i < w) (hj : j < h) (t : Img)
    (hlk : tiles.lookup (cx, cy) = some t) :
    ∀ (L : List (ℤ × ℤ)) (c : Img), (cx, cy) ∈ L →
      (L.foldl (placeStep tiles x0 y0 w h) c).pix
          ((cx - x0).toNat * w + i) ((cy - y0).toNat * h + j) = t.pix i j := by
  intro L
  induction L with
  | nil => intro c hm; exact absurd hm (List.not_mem_nil _)
  | cons ab tl ih =>
    intro c hm
    obtain ⟨a, b⟩ := ab
    rw [List.foldl_cons]
    by_cases htl : ((cx, cy) : ℤ × ℤ) ∈ tl
    · exact ih _ htl
    · have hab : ((a, b) : ℤ × ℤ) = (cx, cy) := by
        rcases List.mem_cons.mp hm with he | htl2
        · exact he.symm
        · exact absurd htl2 htl
      rw [foldl_placeStep_pix_of_not_mem tiles x0 y0 w h hw hh hu cx cy hcx hcy
        i j hi hj tl _ htl]
      rw [hab]
      unfold placeStep
      rw [hlk]
      exact paste_self_cell c t x0 y0 cx cy w h
        (hu _ (lookup_mem hlk)).1 (hu _ (lookup_mem hlk)).2 hcx hcy i j hi hj

/-- The list of grid cells visited by the stitch loops, outer loop over `y`,
inner loop over `x`. -/
def rectCells (xr yr : ℤ × ℤ) : List (ℤ × ℤ) :=
  (intRange yr.1 yr.2).flatMap (fun y => (intRange xr.1 xr.2).map (fun x => (x, y)))

/-- Helper: membership in the visited-cell list is the rectangle bound
condition. -/
lemma mem_rectCells {xr yr : ℤ × ℤ} {p : ℤ × ℤ} :
    p ∈ rectCells xr yr ↔ xr.1 ≤ p.1 ∧ p.1 ≤ xr.2 ∧ yr.1 ≤ p.2 ∧ p.2 ≤ yr.2 := by
  rw [rectCells, List.mem_flatMap]
  constructor
  · rintro ⟨y, hy, hmem⟩
    rw [List.mem_map] at hmem
    obtain ⟨x, hx, rfl⟩ := hmem
    rw [mem_intRange] at hx
    rw [mem_intRange] at hy
    exact ⟨hx.1, hx.2, hy.1, hy.2⟩
  · rintro ⟨h1, h2, h3, h4⟩
    refine ⟨p.2, mem_intRange.mpr ⟨h3, h4⟩, ?_⟩
    rw [List.mem_map]
    exact ⟨p.1, mem_intRange.mpr ⟨h1, h2⟩, rfl⟩

/-- Helper: a nested fold over `y` then `x` is a single fold over the
flattened cell list. -/
lemma foldl_flatMap_pairs (f : Img → (ℤ × ℤ) → Img) (xs ys : List ℤ) (c : Img) :
    (ys.flatMap (fun y => xs.map (fun x => (x, y)))).foldl f c =
      ys.foldl (fun canvas y => xs.foldl (fun canvas x => f canvas (x, y)) canvas) c := by
  induction ys generalizing c with
  | nil => rfl
  | cons y ys ih =>
    rw [List.flatMap_cons, List.foldl_append, List.foldl_map, ih, List.foldl_cons]

/-- Helper: on a non-empty tile set, `stitch_tiles` is the fold of
`placeStep` over the visited cells, starting from the blank canvas. -/
lemma stitch_tiles_eq_foldl (sample : (ℤ × ℤ) × Img) (rest : List ((ℤ × ℤ) × Img))
    (xr yr : ℤ × ℤ) :
    stitch_tiles (sample :: rest) xr yr =
      some ((rectCells xr yr).foldl
        (placeStep (sample :: rest) xr.1 yr.1 sample.2.w sample.2.h)
        (imageNew (sample.2.w * (xr.2 - xr.1 + 1).toNat)
          (sample.2.h * (yr.2 - yr.1 + 1).toNat))) := by
  rw [rectCells, foldl_flatMap_pairs]
  rfl

/-- Helper: the width equation of the blank canvas. -/
lemma imageNew_w (W H : Nat) : (imageNew W H).w = W := rfl

/-- Helper: the height equation of the blank canvas. -/
lemma imageNew_h (W H : Nat) : (imageNew W H).h = H := rfl

/-- Helper: every pixel of the blank canvas is black. -/
lemma imageNew_pix (W H p q : Nat) : (imageNew W H).pix p q = (0, 0, 0) := rfl

/-- Claim C3: `stitch_tiles` on the empty tile set returns `none`; on a
non-empty tile set of uniform `w × h` tiles over a normalized rectangle it
returns a canvas of full size `(w * grid_width, h * grid_height)` in which
every cell of the rectangle whose address is missing from the tile set is
left entirely at the default black background. -/
theorem stitch_tiles_sparse_robust :
    (∀ xr yr : ℤ × ℤ, stitch_tiles [] xr yr = none) ∧
    (∀ (tiles : List ((ℤ × ℤ) × Img)) (w h : Nat) (xr yr : ℤ × ℤ),
      tiles ≠ [] →
      (∀ en ∈ tiles, (Prod.snd en).w = w ∧ (Prod.snd en).h = h) →
      0 < w → 0 < h → xr.1 ≤ xr.2 → yr.1 ≤ yr.2 →
      ∃ c, stitch_tiles tiles xr yr = some c
        ∧ c.w = w * (xr.2 - xr.1 + 1).toNat
        ∧ c.h = h * (yr.2 - yr.1 + 1).toNat
        ∧ ∀ x y : ℤ, xr.1 ≤ x → x ≤ xr.2 → yr.1 ≤ y → y ≤ yr.2 →
            tiles.lookup (x, y) = none →
            ∀ i j : Nat, i < w → j < h →
              c.pix ((x - xr.1).toNat * w + i) ((y - yr.1).toNat * h + j) = (0, 0, 0)) := by
  constructor
  · intro xr yr
    rfl
  · intro tiles w h xr yr hne hu hw hh hx hy
    cases tiles with
    | nil => exact absurd rfl hne
    | cons sample rest =>
      have hsw : sample.2.w = w := (hu _ (List.mem_cons_self _ _)).1
      have hsh : sample.2.h = h := (hu _ (List.mem_cons_self _ _)).2
      subst hsw
      subst hsh
      refine ⟨_, stitch_tiles_eq_foldl sample rest xr yr, ?_, ?_, ?_⟩
      · rw [foldl_placeStep_w, imageNew_w]
      · rw [foldl_placeStep_h, imageNew_h]
      · intro x y hx1 hx2 hy1 hy2 hlk i j hi hj
        rw [foldl_placeStep_pix_of_none (sample :: rest) xr.1 yr.1 _ _ hw hh hu
          x y hx1 hy1 i j hi hj hlk, imageNew_pix]

/-- A concrete one-pixel tile used by the stitch witnesses. -/
def tileA : Img := ⟨1, 1, fun _ _ => (9, 9, 9)⟩

/-- Witness for C3 on the tile set holding only cell `(0, 0)` of the
rectangle `x ∈ [0, 1]`, `y ∈ [0, 0]`, whose cell `(1, 0)` is missing. -/
theorem stitch_tiles_sparse_robust_witness :
    (∀ xr yr : ℤ × ℤ, stitch_tiles [] xr yr = none) ∧
    ((([((0, 0), tileA)] : List ((ℤ × ℤ) × Img)) ≠ [])
      ∧ (∀ en ∈ ([((0, 0), tileA)] : List ((ℤ × ℤ) × Img)),
          (Prod.snd en).w = 1 ∧ (Prod.snd en).h = 1)
      ∧ (0 : ℕ) < 1 ∧ (0 : ℕ) < 1
      ∧ (((0, 1) : ℤ × ℤ).1 ≤ ((0, 1) : ℤ × ℤ).2)
      ∧ (((0, 0) : ℤ × ℤ).1 ≤ ((0, 0) : ℤ × ℤ).2)
      ∧ (∃ c, stitch_tiles [((0, 0), tileA)] (0, 1) (0, 0) = some c
          ∧ c.w = 1 * (((0, 1) : ℤ × ℤ).2 - ((0, 1) : ℤ × ℤ).1 + 1).toNat
          ∧ c.h = 1 * (((0, 0) : ℤ × ℤ).2 - ((0, 0) : ℤ × ℤ).1 + 1).toNat
          ∧ ∀ x y : ℤ, ((0, 1) : ℤ × ℤ).1 ≤ x → x ≤ ((0, 1) : ℤ × ℤ).2 →
              ((0, 0) : ℤ × ℤ).1 ≤ y → y ≤ ((0, 0) : ℤ × ℤ).2 →
              ([((0, 0), tileA)] : List ((ℤ × ℤ) × Img)).lookup (x, y) = none →
              ∀ i j : Nat, i < 1 → j < 1 →
                c.pix ((x - ((0, 1) : ℤ × ℤ).1).toNat * 1 + i)
                  ((y - ((0, 0) : ℤ × ℤ).1).toNat * 1 + j) = (0, 0, 0))) := by
  have hne : (([((0, 0), tileA)] : List ((ℤ × ℤ) × Img)) ≠ []) := List.cons_ne_nil _ _
  have hu : ∀ en ∈ ([((0, 0), tileA)] : List ((ℤ × ℤ) × Img)),
      (Prod.snd en).w = 1 ∧ (Prod.snd en).h = 1 := by
    intro en hen
    rw [List.mem_singleton] at hen
    subst hen
    exact ⟨rfl, rfl⟩
  exact ⟨stitch_tiles_sparse_robust.1,
    hne, hu, by decide, by decide, by decide, by decide,
    stitch_tiles_sparse_robust.2 [((0, 0), tileA)] 1 1 (0, 1) (0, 0)
      hne hu (by decide) (by decide) (by decide) (by decide)⟩

/-- Claim C4: a tile present in the tile set at address `(x, y)` inside the
rectangle is written by `stitch_tiles` at pixel offset
`((x - x_min) * w, (y - y_min) * h)`: every in-tile pixel `(i, j)` appears
at that offset in the stitched canvas. -/
theorem stitch_tiles_placement
    (tiles : List ((ℤ × ℤ) × Img)) (w h : Nat) (xr yr : ℤ × ℤ) (x y : ℤ) (t : Img)
    (hu : ∀ en ∈ tiles, (Prod.snd en).w = w ∧ (Prod.snd en).h = h)
    (hw : 0 < w) (hh : 0 < h)
    (hx1 : xr.1 ≤ x) (hx2 : x ≤ xr.2) (hy1 : yr.1 ≤ y) (hy2 : y ≤ yr.2)
    (hlk : tiles.lookup (x, y) = some t) (i j : Nat) (hi : i < w) (hj : j < h) :
    ∃ c, stitch_tiles tiles xr yr = some c ∧
      c.pix ((x - xr.1).toNat * w + i) ((y - yr.1).toNat * h + j) = t.pix i j := by
  cases tiles with
  | nil => simp [List.lookup] at hlk
  | cons sample rest =>
    have hsw : sample.2.w = w := (hu _ (List.mem_cons_self _ _)).1
    have hsh : sample.2.h = h := (hu _ (List.mem_cons_self _ _)).2
    subst hsw
    subst hsh
    refine ⟨_, stitch_tiles_eq_foldl sample rest xr yr, ?_⟩
    exact foldl_placeStep_pix_of_some (sample :: rest) xr.1 yr.1 _ _ hw hh hu
      x y hx1 hy1 i j hi hj t hlk (rectCells xr yr)
      _ (mem_rectCells.mpr ⟨hx1, hx2, hy1, hy2⟩)

/-- A concrete 256 × 256 tile used by the placement witness. -/
def tile256 : Img := ⟨256, 256, fun _ _ => (1, 2, 3)⟩

/-- Witness for C4 on the spec's example: rectangle `x_min = 5`,
`x_max = 6`, `y_min = 10`, `y_max = 10` with a 256 × 256 tile at `(6, 10)`;
its pixel `(0, 0)` lands at canvas pixel `(256, 0)`. -/
theorem stitch_tiles_placement_witness :
    ((∀ en ∈ ([((6, 10), tile256)] : List ((ℤ × ℤ) × Img)),
        (Prod.snd en).w = 256 ∧ (Prod.snd en).h = 256)
      ∧ (0 : ℕ) < 256 ∧ (0 : ℕ) < 256
      ∧ ((5 : ℤ) ≤ 6) ∧ ((6 : ℤ) ≤ 6) ∧ ((10 : ℤ) ≤ 10) ∧ ((10 : ℤ) ≤ 10)
      ∧ ([((6, 10), tile256)] : List ((ℤ × ℤ) × Img)).lookup (6, 10) = some tile256
      ∧ (0 : ℕ) < 256 ∧ (0 : ℕ) < 256)
    ∧ (∃ c, stitch_tiles [((6, 10), tile256)] (5, 6) (10, 10) = some c ∧
        c.pix (((6 : ℤ) - 5).toNat * 256 + 0) (((10 : ℤ) - 10).toNat * 256 + 0)
          = tile256.pix 0 0) := by
  have hu : ∀ en ∈ ([((6, 10), tile256)] : List ((ℤ × ℤ) × Img)),
      (Prod.snd en).w = 256 ∧ (Prod.snd en).h = 256 := by
    intro en hen
    rw [List.mem_singleton] at hen
    subst hen
    exact ⟨rfl, rfl⟩
  have hlk : ([((6, 10), tile256)] : List ((ℤ × ℤ) × Img)).lookup (6, 10)
      = some tile256 := rfl
  exact ⟨⟨hu, by decide, by decide, by decide, by decide, by decide, by decide,
      hlk, by decide, by decide⟩,
    stitch_tiles_placement [((6, 10), tile256)] 256 256 (5, 6) (10, 10) 6 10 tile256
      hu (by decide) (by decide) (by decide) (by decide) (by decide) (by decide)
      hlk 0 0 (by decide) (by decide)⟩

/-- Helper: on association lists with duplicate-free keys, `List.lookup` is
invariant under permutation of the entries. -/
lemma lookup_perm : ∀ {l1 l2 : List ((ℤ × ℤ) × Img)}, l1.Perm l2 →
    (l1.map Prod.fst).Nodup → ∀ k, l1.lookup k = l2.lookup k := by
  intro l1 l2 hperm
  induction hperm with
  | nil =>
    intro _ k
    rfl
  | cons x hp ih =>
    intro hnd k
    obtain ⟨a, b⟩ := x
    rw [List.map_cons] at hnd
    rw [lookup_cons_eq, lookup_cons_eq]
    by_cases hk : k == a
    · rw [if_pos hk, if_pos hk]
    · rw [if_neg hk, if_neg hk]
      exact ih hnd.of_cons k
  | swap x y l =>
    intro hnd k
    obtain ⟨a, b⟩ := x
    obtain ⟨a', b'⟩ := y
    rw [List.map_cons, List.map_cons] at hnd
    have hne : a' ≠ a := by
      intro he
      exact (List.nodup_cons.mp hnd).1 (by rw [he]; exact List.mem_cons_self _ _)
    rw [lookup_cons_eq, lookup_cons_eq, lookup_cons_eq, lookup_cons_eq]
    by_cases hk : k == a'
    · have hk2 : ¬(k == a) := by
        intro hka
        exact hne ((eq_of_beq hk).symm.trans (eq_of_beq hka))
      rw [if_pos hk, if_neg hk2, if_pos hk]
    · by_cases hk2 : k == a
      · rw [if_neg hk, if_pos hk2, if_pos hk2]
      · rw [if_neg hk, if_neg hk2, if_neg hk2, if_neg hk]
  | trans hp1 hp2 ih1 ih2 =>
    intro hnd k
    rw [ih1 hnd k]
    exact ih2 ((hp1.map Prod.fst).nodup hnd) k

/-- Claim C8: the stitched output is independent of the insertion order of
the tile set: two tile sets that are permutations of each other, with
duplicate-free keys and uniform tile size, stitch to the same image, because
placement is keyed by absolute tile address. -/
theorem stitch_tiles_order_independent
    (l1 l2 : List ((ℤ × ℤ) × Img)) (xr yr : ℤ × ℤ) (w h : Nat)
    (hperm : l1.Perm l2) (hnd : (l1.map Prod.fst).Nodup)
    (hu : ∀ en ∈ l1, (Prod.snd en).w = w ∧ (Prod.snd en).h = h) :
    stitch_tiles l1 xr yr = stitch_tiles l2 xr yr := by
  have hlookup : ∀ k, l1.lookup k = l2.lookup k := lookup_perm hperm hnd
  cases l1 with
  | nil =>
    have h2 : l2 = [] := hperm.symm.eq_nil
    rw [h2]
  | cons s1 r1 =>
    cases l2 with
    | nil => exact absurd hperm.eq_nil (List.cons_ne_nil _ _)
    | cons s2 r2 =>
      have hs1 : s1.2.w = w ∧ s1.2.h = h := hu _ (List.mem_cons_self _ _)
      have hs2mem : s2 ∈ s1 :: r1 := hperm.symm.subset (List.mem_cons_self _ _)
      have hs2 : s2.2.w = w ∧ s2.2.h = h := hu _ hs2mem
      simp only [stitch_tiles, hs1.1, hs1.2, hs2.1, hs2.2, hlookup]

/-- A second concrete one-pixel tile used by the order-independence
witness. -/
def tileB : Img := ⟨1, 1, fun _ _ => (7, 7, 7)⟩

/-- Witness for C8: the two insertion orders of the same two tiles stitch to
the same image. -/
theorem stitch_tiles_order_independent_witness :
    (([((0, 0), tileA), ((1, 0), tileB)] : List ((ℤ × ℤ) × Img)).Perm
        [((1, 0), tileB), ((0, 0), tileA)]
      ∧ (([((0, 0), tileA), ((1, 0), tileB)] : List ((ℤ × ℤ) × Img)).map Prod.fst).Nodup
      ∧ (∀ en ∈ ([((0, 0), tileA), ((1, 0), tileB)] : List ((ℤ × ℤ) × Img)),
          (Prod.snd en).w = 1 ∧ (Prod.snd en).h = 1))
    ∧ stitch_tiles [((0, 0), tileA), ((1, 0), tileB)] (0, 1) (0, 0)
        = stitch_tiles [((1, 0), tileB), ((0, 0), tileA)] (0, 1) (0, 0) := by
  have hperm : ([((0, 0), tileA), ((1, 0), tileB)] : List ((ℤ × ℤ) × Img)).Perm
      [((1, 0), tileB), ((0, 0), tileA)] := List.Perm.swap _ _ _
  have hnd : (([((0, 0), tileA), ((1, 0), tileB)] : List ((ℤ × ℤ) × Img)).map
      Prod.fst).Nodup := by decide
  have hu : ∀ en ∈ ([((0, 0), tileA), ((1, 0), tileB)] : List ((ℤ × ℤ) × Img)),
      (Prod.snd en).w = 1 ∧ (Prod.snd en).h = 1 := by
    intro en hen
    rw [List.mem_cons, List.mem_singleton] at hen
    rcases hen with hen | hen <;> subst hen <;> exact ⟨rfl, rfl⟩
  exact ⟨⟨hperm, hnd, hu⟩,
    stitch_tiles_order_independent [((0, 0), tileA), ((1, 0), tileB)]
      [((1, 0), tileB), ((0, 0), tileA)] (0, 1) (0, 0) 1 1 hperm hnd hu⟩

end Satlas
